import Mathlib

/-!
Verification development for the MevzuatAI retrieval core.

Shallow embedding of the semantic-search pipeline of
`rag_system/rag_integration.py`, the chunker of
`rag_system/create_embeddings.py` and the document matcher of
`utils/law_matcher.py`.  Numeric values (numpy float64) are modelled as
exact rationals; external collaborators (the OpenAI embedding endpoint,
the cl100k tokenizer, the regex engine) are modelled as explicit
parameters or small executable stand-ins, each documented at its
definition.
-/

namespace MevzuatAI

/-- record of one stored chunk, mirroring the dictionaries of the
`legal_chunks_*.json` snapshot files.  `law_name` is optional because
`search_laws` reads it with `chunk.get('law_name', 'Unknown')`. -/
structure Chunk where
  law_name : Option String
  law_type : String
  law_number : String
  acceptance_date : String
  gazette_date : String
  detail_url : String
  text : String
  chunk_index : Nat
deriving DecidableEq, Repr

/-- default chunk used for the (never exercised when snapshot is aligned)
out-of-range list access `self.chunks[idx]`. -/
def defaultChunk : Chunk :=
  ⟨none, "", "", "", "", "", "", 0⟩

/-- result record built by `RAGSystem.search_laws` (rag_integration.py,
lines 193-203). -/
structure RankedResult where
  rank : Nat
  law_name : String
  law_type : String
  similarity : ℚ
  law_number : String
  acceptance_date : String
  gazette_date : String
  detail_url : String
  relevant_text : String
deriving DecidableEq, Repr

/-- state of a `RAGSystem` instance after `load_embeddings`:
`self.chunks` and `self.embeddings` (`None` when no snapshot loaded). -/
structure RAGSystem where
  chunks : List Chunk
  embeddings : Option (List (List ℚ))
deriving DecidableEq, Repr

/-- model of Python's codepoint slice `s[:n]`. -/
def pySlice (s : String) (n : Nat) : String :=
  (s.data.take n).asString

/-- model of `RAGSystem.get_query_embedding` (rag_integration.py, lines
136-146): the OpenAI call either returns a vector or raises; the
`except` branch turns any raise into `None`. -/
def getQueryEmbedding (resp : Except String (List ℚ)) : Option (List ℚ) :=
  match resp with
  | .ok v => some v
  | .error _ => none

/-- ordering used by the argsort model: ascending by similarity value,
with tied values ordered by ascending position. -/
def simLE (sims : List ℚ) (i j : Nat) : Prop :=
  sims.getD i 0 < sims.getD j 0 ∨ (sims.getD i 0 = sims.getD j 0 ∧ i ≤ j)

instance (sims : List ℚ) : DecidableRel (simLE sims) := fun i j =>
  inferInstanceAs (Decidable (sims.getD i 0 < sims.getD j 0 ∨
    (sims.getD i 0 = sims.getD j 0 ∧ i ≤ j)))

/-- stable ascending argsort over the similarity list, modelling
`np.argsort(similarities)`: indices ordered by value and, among equal
values, by position (the observable behaviour of numpy's argsort on the
small arrays of this code path). -/
def argsortAsc (sims : List ℚ) : List Nat :=
  List.insertionSort (simLE sims) (List.range sims.length)

/-- model of `np.argsort(similarities)[::-1][:top_k]` (rag_integration.py,
line 177). -/
def topIndices (sims : List ℚ) (topK : Nat) : List Nat :=
  (argsortAsc sims).reverse.take topK

/-- one result dictionary (rag_integration.py, lines 193-203); `rank` is
`len(results) + 1` at creation time. -/
def mkResult (c : Chunk) (rank : Nat) (sim : ℚ) : RankedResult :=
  { rank := rank
    law_name := c.law_name.getD "Unknown"
    law_type := c.law_type
    similarity := sim
    law_number := c.law_number
    acceptance_date := c.acceptance_date
    gazette_date := c.gazette_date
    detail_url := c.detail_url
    relevant_text := pySlice c.text 300 ++ "..." }

/-- the deduplicating walk of `search_laws` (rag_integration.py, lines
179-208): for each index in order, skip it when its law name was already
emitted, otherwise emit a result, stopping once `top_k` results are
collected.  `seen` is the `seen_laws` set, `acc` the `results` list in
reverse. -/
def searchWalk (chunks : List Chunk) (sims : List ℚ) (topK : Nat) :
    List Nat → List String → List RankedResult → List RankedResult
  | [], _, acc => acc.reverse
  | i :: rest, seen, acc =>
    if (chunks.getD i defaultChunk).law_name.getD "Unknown" ∈ seen then
      searchWalk chunks sims topK rest seen acc
    else if topK ≤ acc.length + 1 then
      (mkResult (chunks.getD i defaultChunk) (acc.length + 1)
        (sims.getD i 0) :: acc).reverse
    else
      searchWalk chunks sims topK rest
        ((chunks.getD i defaultChunk).law_name.getD "Unknown" :: seen)
        (mkResult (chunks.getD i defaultChunk) (acc.length + 1)
          (sims.getD i 0) :: acc)

/-- model of `RAGSystem.search_laws` (rag_integration.py, lines 148-215).
`simFn` is the similarity row computation (`cosine_similarity(q, E)[0]`,
computed by scikit-learn or the local fallback); `queryEmb` is the
outcome of `get_query_embedding`.  The early returns mirror the source:
empty results when no snapshot is loaded or the query embedding is
unavailable. -/
def searchLaws (simFn : List ℚ → List ℚ → ℚ) (sys : RAGSystem)
    (queryEmb : Option (List ℚ)) (topK : Nat) : List RankedResult :=
  match sys.embeddings with
  | none => []
  | some embs =>
    if sys.chunks = [] then []
    else
      match queryEmb with
      | none => []
      | some q =>
        let sims := embs.map (simFn q)
        searchWalk sys.chunks sims topK (topIndices sims topK) [] []

/-- model of `RAGSystem.load_embeddings` (rag_integration.py, lines
40-59): production tries the cloud first, then local files; when both
fail the system enters demo mode with `chunks = []`,
`embeddings = None`.  The two loader outcomes are passed in as the
`Option` results of `_try_load_from_cloud` / `_try_load_from_local`. -/
def loadEmbeddings (isProduction : Bool)
    (cloud localFiles : Option (List Chunk × List (List ℚ))) : RAGSystem :=
  match (if isProduction then cloud else none) with
  | some s => ⟨s.1, some s.2⟩
  | none =>
    match localFiles with
    | some s => ⟨s.1, some s.2⟩
    | none => ⟨[], none⟩

/-- dot product over rational vectors, `np.dot(a, b)` at matching
dimensionality. -/
def dot (a b : List ℚ) : ℚ :=
  (List.zipWith (· * ·) a b).sum

/-- squared Euclidean norm, `np.linalg.norm(v) ** 2`. -/
def normSq (v : List ℚ) : ℚ :=
  dot v v

/-- similarity function used for concrete scenarios: a plain dot
product.  On unit-norm embeddings this coincides with cosine
similarity, and it lets a snapshot realise any prescribed list of
similarity values exactly. -/
def dotSim (q c : List ℚ) : ℚ :=
  dot q c

/-- true when the string has a non-whitespace character: the truthiness
of Python's `s.strip()`, used as the flush guard in `chunk_text`. -/
def hasNonWS (s : String) : Bool :=
  s.data.any (fun c => ¬ c.isWhitespace)

/-- text accumulated by `current_chunk += " " + article_content`: the
units of a chunk joined by single spaces. -/
def joinSp : List String → String
  | [] => ""
  | [x] => x
  | x :: xs => x ++ " " ++ joinSp xs

/-- article-path accumulation loop of `chunk_text`
(create_embeddings.py, lines 60-79), with the unit list of each chunk
kept explicit: `cur` holds the units of `current_chunk` (its head is
the preamble for the first chunk), `curTok` is `current_chunk_tokens`,
`acc` the closed chunks; a chunk's text is `joinSp` of its group.
`tc` stands for `self.count_tokens` (the external cl100k tokenizer). -/
def chunkArticlesGo (tc : String → Nat) (maxTok : Nat) :
    List String → List String → Nat → List (List String) → List (List String)
  | [], cur, _, acc => if hasNonWS (joinSp cur) then acc ++ [cur] else acc
  | a :: rest, cur, curTok, acc =>
    if maxTok < curTok + tc a ∧ hasNonWS (joinSp cur) then
      chunkArticlesGo tc maxTok rest [a] (tc a) (acc ++ [cur])
    else
      chunkArticlesGo tc maxTok rest (cur ++ [a]) (curTok + tc a) acc

/-- chunk unit groups for a document whose text split on the MADDE
pattern into preamble `pre` (`article_splits[0]`) and formatted articles
`arts` (each `f"{article_num} {article_text}"`). -/
def chunkArticleGroups (tc : String → Nat) (maxTok : Nat)
    (pre : String) (arts : List String) : List (List String) :=
  chunkArticlesGo tc maxTok arts [pre] (tc pre) []

/-- text accumulated by `current_chunk + ". " + sentence`: the sentences
of a chunk joined by `". "`. -/
def joinDot : List String → String
  | [] => ""
  | [x] => x
  | x :: xs => x ++ ". " ++ joinDot xs

/-- sentence-fallback loop `_chunk_by_sentences` (create_embeddings.py,
lines 87-106), with the sentence list of each chunk kept explicit;
`joinDot cur` is exactly Python's `current_chunk`, and the branch on
`joinDot cur = ""` is the truthiness test `if current_chunk`. -/
def chunkSentencesGo (tc : String → Nat) (maxTok : Nat) :
    List String → List String → List (List String) → List (List String)
  | [], cur, acc => if hasNonWS (joinDot cur) then acc ++ [cur] else acc
  | s :: rest, cur, acc =>
    let test := if joinDot cur = "" then s else joinDot cur ++ ". " ++ s
    if maxTok < tc test then
      if joinDot cur = "" then chunkSentencesGo tc maxTok rest [s] acc
      else chunkSentencesGo tc maxTok rest [s] (acc ++ [cur])
    else
      chunkSentencesGo tc maxTok rest
        (if joinDot cur = "" then [s] else cur ++ [s]) acc

/-- sentence groups for a document with sentences `sents`
(`text.split('. ')`). -/
def chunkSentenceGroups (tc : String → Nat) (maxTok : Nat)
    (sents : List String) : List (List String) :=
  chunkSentencesGo tc maxTok sents [] []

/-- dispatch of `chunk_text` (create_embeddings.py, lines 59-84): the
article path runs when the MADDE split produced at least one article
(`len(article_splits) > 1`), otherwise the sentence fallback. -/
def chunkTextGroups (tc : String → Nat) (maxTok : Nat) (pre : String)
    (arts : List String) (sents : List String) : List (List String) :=
  if arts = [] then chunkSentenceGroups tc maxTok sents
  else chunkArticleGroups tc maxTok pre arts

/-- number of content-bearing units in a chunk group: articles always
have non-whitespace content (they start with their `MADDE n` marker),
while an all-whitespace preamble carries no unit of its own. -/
def unitCount (g : List String) : Nat :=
  (g.filter (fun u => hasNonWS u)).length

/-- row of the tabular legal dataset (`mevzuat_combined_*.xlsx`), the
columns read by `law_matcher.py` and `create_embeddings.py`. -/
structure LawRow where
  mevAdi : String
  law_type : String
  mevzuatNo : String
  kabulTarih : String
  resmiGazeteTarihi : String
  resmiGazeteSayisi : String
  full_text : String
  text_length : Nat
  detail_url : String
deriving DecidableEq, Repr

/-- law record returned by `LawMatcher.find_law_by_name`
(law_matcher.py, lines 52-62). -/
structure LawRec where
  law_name : String
  law_type : String
  law_number : String
  acceptance_date : String
  gazette_date : String
  gazette_number : String
  full_text : String
  text_length : Nat
  detail_url : String
deriving DecidableEq, Repr

/-- the dictionary built from a matched dataset row. -/
def toLawRec (r : LawRow) : LawRec :=
  ⟨r.mevAdi, r.law_type, r.mevzuatNo, r.kabulTarih, r.resmiGazeteTarihi,
    r.resmiGazeteSayisi, r.full_text, r.text_length, r.detail_url⟩

/-- check that the first character list starts the second. -/
def startsWithChars : List Char → List Char → Bool
  | [], _ => true
  | _ :: _, [] => false
  | a :: as, b :: bs => a == b && startsWithChars as bs

/-- check that `p` occurs contiguously inside the second list. -/
def hasInfixChars (p : List Char) : List Char → Bool
  | [] => startsWithChars p []
  | b :: bs => startsWithChars p (b :: bs) || hasInfixChars p bs

/-- case-insensitive literal containment: the behaviour of
`Series.str.contains(pat, case=False)` on patterns free of regex
metacharacters (case folding modelled by `Char.toLower`, which covers
the ASCII range; the concrete instances below use identical case for
characters outside it). -/
def containsCI (hay pat : String) : Bool :=
  hasInfixChars (pat.data.map Char.toLower) (hay.data.map Char.toLower)

/-- parenthesis balance check over a pattern, depth-counting. -/
def parensBal : Nat → List Char → Bool
  | d, [] => d = 0
  | d, c :: cs =>
    if c = '(' then parensBal (d + 1) cs
    else if c = ')' then (if d = 0 then false else parensBal (d - 1) cs)
    else parensBal d cs

/-- model of Python `re` pattern compilability for the pattern fragment
relevant here: a pattern with unbalanced parentheses raises `re.error`
when `Series.str.contains` compiles it (pandas default `regex=True`);
other characters are treated as literals. -/
def reCompiles (pat : String) : Bool :=
  parensBal 0 pat.data

/-- whitespace tokenization, Python `s.split()`: maximal runs of
non-whitespace characters. -/
def tokensGo : List Char → List Char → List String
  | [], cur => if cur = [] then [] else [cur.reverse.asString]
  | c :: cs, cur =>
    if c.isWhitespace then
      (if cur = [] then tokensGo cs [] else cur.reverse.asString :: tokensGo cs [])
    else tokensGo cs (c :: cur)

/-- list of whitespace-delimited tokens of a string. -/
def pyTokens (s : String) : List String :=
  tokensGo s.data []

/-- model of `LawMatcher.find_law_by_name` (law_matcher.py, lines
36-89).  `Series.str.contains` interprets the requested name as a
regular expression; a non-compilable pattern raises inside the `try`
and the `except` handler returns `None`.  An empty token list makes
`law_name.split()[0]` raise `IndexError`, likewise absorbed to `None`.
`exact_match.iloc[0]` is the first row of the filtered frame. -/
def findLawByName (df : List LawRow) (name : String) : Option LawRec :=
  if ¬ reCompiles name then none
  else
    match (df.filter (fun r => containsCI r.mevAdi name)).head? with
    | some r => some (toLawRec r)
    | none =>
      match (pyTokens name).head? with
      | none => none
      | some tok =>
        if ¬ reCompiles tok then none
        else
          match (df.filter (fun r => containsCI r.mevAdi tok)).head? with
          | some r => some (toLawRec r)
          | none => none

/-- model of `LawMatcher.find_multiple_laws` (law_matcher.py, lines
91-109): unresolved names are dropped. -/
def findMultipleLaws (df : List LawRow) (names : List String) : List LawRec :=
  names.filterMap (findLawByName df)

/-- structured header prefixed to each law in the combined text
(law_matcher.py, lines 153-156 and 166-169). -/
def headerOf (law : LawRec) : String :=
  "\n\n=== " ++ law.law_name ++ " ===\n" ++ "Kanun No: " ++ law.law_number ++
    "\n" ++ "Kabul Tarihi: " ++ law.acceptance_date ++ "\n" ++ "Türü: " ++
    law.law_type ++ "\n\n"

/-- the `"=" * 50` footer line. -/
def eqBar : String :=
  (List.replicate 50 '=').asString

/-- full section for one law: header, full text, footer. -/
def sectionOf (law : LawRec) : String :=
  headerOf law ++ law.full_text ++ "\n" ++ eqBar

/-- truncation marker `"...\n[Metin kısaltıldı]"` appended to a
truncated law text. -/
def truncMarker : String :=
  "...\n[Metin kısaltıldı]"

/-- loop of `LawMatcher.get_combined_law_text` (law_matcher.py, lines
150-176).  `law_section.split('\n\n')[0]` is the empty string (every
section starts with `"\n\n"`), so `remaining_space` is
`max_length - len(combined_text) - 100`, an `Int` since it can go
negative; the truncated rebuild omits the footer. -/
def combineLoop (maxLen : Nat) : List LawRec → String → String
  | [], acc => acc
  | law :: rest, acc =>
    let sec := sectionOf law
    if maxLen < (acc ++ sec).length then
      let remaining : Int := (maxLen : Int) - acc.length - 100
      if 200 < remaining then
        acc ++ (headerOf law ++ pySlice law.full_text remaining.toNat ++ truncMarker)
      else acc
    else combineLoop maxLen rest (acc ++ sec)

/-- model of `LawMatcher.get_combined_law_text` (law_matcher.py, lines
137-176). -/
def getCombinedLawText (df : List LawRow) (names : List String)
    (maxLen : Nat) : String :=
  combineLoop maxLen (findMultipleLaws df names) ""

/-- path of an embeddings snapshot file with timestamp token `ts`, as
written by `_save_final_results` and globbed by
`_try_load_from_local`. -/
def pathE (dir ts : String) : String :=
  dir ++ "/legal_embeddings_" ++ ts ++ ".npy"

/-- path of the chunks file of the snapshot with timestamp `ts`. -/
def pathC (dir ts : String) : String :=
  dir ++ "/legal_chunks_" ++ ts ++ ".json"

/-- codepoint-lexicographic strict comparison of character lists:
Python's string `<` as used by `sorted`. -/
def lexLt : List Char → List Char → Bool
  | [], [] => false
  | [], _ :: _ => true
  | _ :: _, [] => false
  | a :: as, b :: bs => if a < b then true else if b < a then false else lexLt as bs

/-- Python string comparison `a < b` over the codepoint data. -/
def strLt (a b : String) : Bool :=
  lexLt a.data b.data

/-- model of `sorted(files)[-1]`: the lexicographically greatest
element of a nonempty path list. -/
def latestFile : List String → Option String
  | [] => none
  | f :: fs =>
    match latestFile fs with
    | none => some f
    | some m => if strLt m f then some f else some m

/-- model of `RAGSystem._try_load_from_local` (rag_integration.py,
lines 96-134): the embedding and chunk file lists are globbed
independently over the three search paths, and when both are nonempty
the lexicographically greatest path of EACH list is loaded. -/
def tryLoadFromLocal (embFiles chunkFiles : List String) :
    Option (String × String) :=
  if embFiles = [] ∨ chunkFiles = [] then none
  else
    match latestFile embFiles, latestFile chunkFiles with
    | some e, some c => some (e, c)
    | _, _ => none

/-- model of the fallback `cosine_similarity` (rag_integration.py,
lines 22-25) under IEEE-754 semantics: when the product of the norms is
zero, numpy's division yields NaN or ±Inf (represented `none`, with a
RuntimeWarning but no exception); otherwise the finite value
`dot/(‖a‖·‖b‖)`, represented by the pair of its numerator `dot a b`
and the square `normSq a * normSq b` of its denominator so the model
stays inside ℚ. -/
def cosineFallback (a b : List ℚ) : Option (ℚ × ℚ) :=
  if normSq a * normSq b = 0 then none
  else some (dot a b, normSq a * normSq b)

/-- sample token counter used in witnesses: the number of non-space
characters, which is additive across single-space joins -- the property
the external cl100k tokenizer is assumed to satisfy in the
chunk-ceiling theorem. -/
def countNonSpace (s : String) : Nat :=
  (s.data.filter (fun c => c ≠ ' ')).length

/-- dataset row whose name contains parentheses, so that a RAG result
carrying the name verbatim is a regex with an unbalanced `(` when cut
before the closing parenthesis. -/
def torbaRow : LawRow :=
  ⟨"TORBA (MÜLGA) KANUN", "Kanun", "9999", "01.01.2000", "02.01.2000",
    "11111", "kanun tam metni burada", 22, "http://example/torba"⟩

/-- resolved law record used by the combined-text scenarios. -/
def cevreRow : LawRow :=
  ⟨"ÇEVRE KANUNU", "Kanun", "2872", "09.08.1983", "11.08.1983", "18132",
    "Madde metinleri burada yer alir", 31, "http://example/cevre"⟩

/-- greatest header length among a list of resolved laws: the bounded
per-dataset overhead that `get_combined_law_text` can add beyond
`max_length`. -/
def maxHeaderLen (laws : List LawRec) : Nat :=
  laws.foldr (fun l m => max (headerOf l).length m) 0

/-- law names already emitted stay a superset of the accumulator's
names throughout the walk, so the emitted names are pairwise
distinct. -/
lemma searchWalk_law_names_nodup (chunks : List Chunk) (sims : List ℚ)
    (topK : Nat) (idxs : List Nat) :
    ∀ (seen : List String) (acc : List RankedResult),
      (acc.map (fun r => r.law_name)).Nodup →
      (∀ r ∈ acc, r.law_name ∈ seen) →
      ((searchWalk chunks sims topK idxs seen acc).map
        (fun r => r.law_name)).Nodup := by
  induction idxs with
  | nil =>
    intro seen acc hnd _
    rw [searchWalk, List.map_reverse, List.nodup_reverse]
    exact hnd
  | cons i rest ih =>
    intro seen acc hnd hseen
    rw [searchWalk]
    by_cases hmem : (chunks.getD i defaultChunk).law_name.getD "Unknown" ∈ seen
    · rw [if_pos hmem]
      exact ih seen acc hnd hseen
    · rw [if_neg hmem]
      have hnotin : (chunks.getD i defaultChunk).law_name.getD "Unknown" ∉
          acc.map (fun r => r.law_name) := by
        intro hin
        rcases List.mem_map.mp hin with ⟨r, hr, hrname⟩
        exact hmem (hrname ▸ hseen r hr)
      have hnd' : ((mkResult (chunks.getD i defaultChunk) (acc.length + 1)
          (sims.getD i 0) :: acc).map (fun r => r.law_name)).Nodup := by
        rw [List.map_cons, List.nodup_cons]
        exact ⟨hnotin, hnd⟩
      have hseen' : ∀ r ∈ mkResult (chunks.getD i defaultChunk)
          (acc.length + 1) (sims.getD i 0) :: acc,
          r.law_name ∈ (chunks.getD i defaultChunk).law_name.getD "Unknown" ::
            seen := by
        intro r hr
        rcases List.mem_cons.mp hr with h | h
        · subst h; exact List.mem_cons_self _ _
        · exact List.mem_cons_of_mem _ (hseen r h)
      by_cases hful : topK ≤ acc.length + 1
      · rw [if_pos hful, List.map_reverse, List.nodup_reverse]
        exact hnd'
      · rw [if_neg hful]
        exact ih _ _ hnd' hseen'

/-- C4: every result list returned by `search_laws` carries pairwise
distinct `law_name`s: at most one entry per distinct parent
document. -/
theorem search_laws_dedup (simFn : List ℚ → List ℚ → ℚ) (sys : RAGSystem)
    (queryEmb : Option (List ℚ)) (topK : Nat) :
    ((searchLaws simFn sys queryEmb topK).map (fun r => r.law_name)).Nodup := by
  unfold searchLaws
  cases sys.embeddings with
  | none => simp
  | some embs =>
    by_cases hch : sys.chunks = []
    · simp [hch]
    · cases queryEmb with
      | none => simp [hch]
      | some q =>
        simp only [hch, if_false]
        exact searchWalk_law_names_nodup _ _ _ _ [] [] (by simp) (by simp)

/-- C3: when the embedding provider raises on every attempt,
`get_query_embedding` yields no vector and `search_laws` returns the
empty list for every system state, query and `top_k`; the model is a
total function, so no exception propagates to the caller. -/
theorem search_laws_empty_on_embedding_failure
    (simFn : List ℚ → List ℚ → ℚ) (sys : RAGSystem) (err : String)
    (topK : Nat) :
    searchLaws simFn sys (getQueryEmbedding (.error err)) topK = [] := by
  unfold searchLaws getQueryEmbedding
  cases sys.embeddings <;> simp

/-- chunk record template for concrete snapshots. -/
def mkChunk (nm : String) (num : String) (idx : Nat) (txt : String) : Chunk :=
  ⟨some nm, "Kanun", num, "", "", "", txt, idx⟩

/-- scenario snapshot of the spec: three ÇEVRE KANUNU chunks and one İŞ
KANUNU chunk.  Embeddings are 1-dimensional and the query embedding is
`[1]`, so the dot-product similarity of each chunk equals the
prescribed value: 0.91, 0.85, 0.40 for the ÇEVRE chunks and 0.77 for
the İŞ chunk. -/
def scenarioSystem : RAGSystem :=
  ⟨[mkChunk "ÇEVRE KANUNU" "2872" 0 "çevre birinci",
    mkChunk "ÇEVRE KANUNU" "2872" 1 "çevre ikinci",
    mkChunk "ÇEVRE KANUNU" "2872" 2 "çevre üçüncü",
    mkChunk "İŞ KANUNU" "4857" 0 "iş birinci"],
   some [[91/100], [85/100], [40/100], [77/100]]⟩

/-- C1 counterexample: on the spec's own scenario (ÇEVRE KANUNU chunks
at similarities 0.91, 0.85, 0.40; İŞ KANUNU at 0.77; top_k = 2) the
code returns exactly ONE result, not the claimed two: line 177 truncates
the similarity-sorted index list to the top_k = 2 chunks (both ÇEVRE
KANUNU) before deduplication, so İŞ KANUNU at rank 4 of the sorted list
is never inspected. -/
theorem scenario_topk2_returns_one_result :
    (searchLaws dotSim scenarioSystem (some [1]) 2).length = 1 ∧
    (searchLaws dotSim scenarioSystem (some [1]) 2).map
      (fun r => r.law_name) = ["ÇEVRE KANUNU"] := by
  constructor <;>
    norm_num [searchLaws, scenarioSystem, dotSim, dot, topIndices, argsortAsc,
      simLE, List.range_succ, searchWalk, mkResult, mkChunk] <;> simp

/-- C1 amended: `search_laws` deduplicates only within the window of
the `top_k` most similar chunks (`np.argsort(sims)[::-1][:top_k]`), so
it can return fewer than `top_k` distinct documents even when more
exist.  On the scenario snapshot, top_k = 2 yields the single result
rank 1 ÇEVRE KANUNU (0.91); İŞ KANUNU (0.77) only surfaces once the
window is enlarged to cover its chunk, e.g. with top_k = 4, where the
walk emits rank 1 ÇEVRE KANUNU (0.91) and rank 2 İŞ KANUNU (0.77),
skipping the two later ÇEVRE chunks. -/
theorem search_laws_dedups_within_topk_window :
    (searchLaws dotSim scenarioSystem (some [1]) 2).map
      (fun r => (r.rank, r.law_name, r.similarity))
      = [(1, "ÇEVRE KANUNU", (91:ℚ)/100)] ∧
    (searchLaws dotSim scenarioSystem (some [1]) 4).map
      (fun r => (r.rank, r.law_name, r.similarity))
      = [(1, "ÇEVRE KANUNU", (91:ℚ)/100), (2, "İŞ KANUNU", (77:ℚ)/100)] := by
  constructor <;>
    norm_num [searchLaws, scenarioSystem, dotSim, dot, topIndices, argsortAsc,
      simLE, List.range_succ, searchWalk, mkResult, mkChunk] <;> simp

/-- two-chunk snapshot with identical embeddings, hence tied
similarities; the A chunk has the smaller chunk_index and the earlier
storage position. -/
def tieSystem : RAGSystem :=
  ⟨[mkChunk "A KANUNU" "1" 0 "a metni", mkChunk "B KANUNU" "2" 1 "b metni"],
   some [[1], [1]]⟩

/-- C7 counterexample: with two chunks of EQUAL similarity, the chunk
stored later (chunk_index 1, law B) is ranked FIRST: `np.argsort`
ascends leaving ties in storage order, and the `[::-1]` reversal turns
that into descending storage order, so the claimed tie-break by
ascending chunk_index / insertion order does not hold. -/
theorem tie_break_not_ascending_chunk_index :
    (searchLaws dotSim tieSystem (some [1]) 2).map
      (fun r => (r.law_name, r.similarity))
      = [("B KANUNU", 1), ("A KANUNU", 1)] ∧
    (tieSystem.chunks.map (fun c => c.chunk_index)) = [0, 1] := by
  refine ⟨?_, ?_⟩ <;>
    · norm_num [searchLaws, tieSystem, dotSim, dot, topIndices, argsortAsc,
        simLE, List.range_succ, searchWalk, mkResult, mkChunk]
      try simp

/-- totality of the argsort ordering. -/
lemma simLE_total (sims : List ℚ) : ∀ i j, simLE sims i j ∨ simLE sims j i := by
  intro i j
  rcases lt_trichotomy (sims.getD i 0) (sims.getD j 0) with h | h | h
  · exact Or.inl (Or.inl h)
  · rcases Nat.le_total i j with hij | hij
    · exact Or.inl (Or.inr ⟨h, hij⟩)
    · exact Or.inr (Or.inr ⟨h.symm, hij⟩)
  · exact Or.inr (Or.inl h)

/-- transitivity of the argsort ordering. -/
lemma simLE_trans (sims : List ℚ) :
    ∀ i j k, simLE sims i j → simLE sims j k → simLE sims i k := by
  intro i j k hij hjk
  rcases hij with h₁ | ⟨e₁, l₁⟩
  · rcases hjk with h₂ | ⟨e₂, _⟩
    · exact Or.inl (h₁.trans h₂)
    · exact Or.inl (e₂ ▸ h₁)
  · rcases hjk with h₂ | ⟨e₂, l₂⟩
    · exact Or.inl (e₁ ▸ h₂)
    · exact Or.inr ⟨e₁.trans e₂, l₁.trans l₂⟩

/-- the modelled argsort output is sorted under `simLE`. -/
lemma argsortAsc_sorted (sims : List ℚ) :
    (argsortAsc sims).Pairwise (simLE sims) := by
  haveI : IsTotal Nat (simLE sims) := ⟨simLE_total sims⟩
  haveI : IsTrans Nat (simLE sims) := ⟨simLE_trans sims⟩
  exact List.sorted_insertionSort (simLE sims) (List.range sims.length)

/-- the modelled argsort output has no duplicate indices. -/
lemma argsortAsc_nodup (sims : List ℚ) : (argsortAsc sims).Nodup :=
  (List.perm_insertionSort (simLE sims) (List.range sims.length)).nodup_iff.mpr
    (List.nodup_range _)

/-- C7 amended: the index walk of `search_laws` is ordered by strictly
descending similarity, and tied similarities appear in strictly
DESCENDING chunk position (the later-stored chunk first): `np.argsort`
ascends leaving ties in storage order, and the `[::-1]` reversal turns
that into descending storage order; `chunk_index` is never consulted.
The ranking is a pure function of the snapshot and query embedding,
hence deterministic. -/
theorem topIndices_sorted_desc (sims : List ℚ) (topK : Nat) :
    (topIndices sims topK).Pairwise (fun i j =>
      sims.getD j 0 < sims.getD i 0 ∨
        (sims.getD i 0 = sims.getD j 0 ∧ j < i)) := by
  have hcomb : (argsortAsc sims).Pairwise
      (fun i j => simLE sims i j ∧ i ≠ j) :=
    (argsortAsc_sorted sims).and (argsortAsc_nodup sims)
  have hrev : (argsortAsc sims).reverse.Pairwise
      (fun i j => simLE sims j i ∧ j ≠ i) :=
    List.pairwise_reverse.mpr hcomb
  refine ((hrev.sublist (List.take_sublist _ _)).imp ?_)
  intro i j ⟨hle, hne⟩
  rcases hle with h | ⟨he, hl⟩
  · exact Or.inl h
  · exact Or.inr ⟨he.symm, lt_of_le_of_ne hl hne⟩

/-- C9: when no snapshot is present at any configured location (cloud
and local loaders both fail), `load_embeddings` leaves the system in
demo mode and every subsequent `search_laws` call returns the empty
list for every query embedding and `top_k`, never an exception. -/
theorem search_laws_empty_when_no_snapshot
    (simFn : List ℚ → List ℚ → ℚ) (isProduction : Bool)
    (queryEmb : Option (List ℚ)) (topK : Nat) :
    searchLaws simFn (loadEmbeddings isProduction none none) queryEmb topK
      = [] := by
  cases isProduction <;> rfl

/-- C10: `find_law_by_name` hands the requested name to
`Series.str.contains` as a regular expression (pandas default
`regex=True`).  The name "TORBA (MÜLGA" carries an unbalanced
parenthesis, so pattern compilation raises `re.error` inside the `try`
and the `except` handler returns `None` — even though the name occurs
verbatim in the dataset row "TORBA (MÜLGA) KANUN", as the literal
case-insensitive substring test (second conjunct) shows.  The spec's
"exact case-insensitive substring match" therefore fails for such
names. -/
theorem find_law_regex_name_returns_none :
    findLawByName [torbaRow] "TORBA (MÜLGA" = none ∧
    containsCI torbaRow.mevAdi "TORBA (MÜLGA" = true := by
  constructor <;> decide

set_option maxRecDepth 4000 in
/-- C5 counterexample: with a single resolved law and `max_length = 50`
the cumulative length would exceed `max_length` (second conjunct), yet
the returned string is empty: no truncated text and no truncation
marker is appended, because the remaining budget
`max_length - len(combined) - 100 = -50` fails the `> 200` guard and
the loop breaks, dropping the current law entirely. -/
theorem combined_text_small_budget_returns_empty :
    getCombinedLawText [cevreRow] ["ÇEVRE KANUNU"] 50 = "" ∧
    50 < (sectionOf (toLawRec cevreRow)).length := by
  constructor <;> decide

/-- key length bound for the combined-text loop: starting from an
accumulator within budget, the result exceeds `max_length` by at most
the largest header length of the remaining laws (the truncated tail
contributes `max_length - len(acc) - 100` text characters plus the
22-character marker, under the current law's header). -/
lemma combineLoop_length_le (maxLen : Nat) :
    ∀ (laws : List LawRec) (acc : String), acc.length ≤ maxLen →
      (combineLoop maxLen laws acc).length ≤ maxLen + maxHeaderLen laws := by
  intro laws
  induction laws with
  | nil =>
    intro acc hacc
    rw [combineLoop]
    exact hacc.trans (Nat.le_add_right _ _)
  | cons law rest ih =>
    intro acc hacc
    rw [combineLoop]
    by_cases hov : maxLen < (acc ++ sectionOf law).length
    · rw [if_pos hov]
      by_cases hrem : (200 : ℤ) < (maxLen : ℤ) - acc.length - 100
      · rw [if_pos hrem]
        have hbig : acc.length + 300 < maxLen := by omega
        have htn : ((maxLen : ℤ) - acc.length - 100).toNat
            = maxLen - acc.length - 100 := by omega
        have hslice : (pySlice law.full_text
            ((maxLen : ℤ) - acc.length - 100).toNat).length
            ≤ maxLen - acc.length - 100 := by
          calc (pySlice law.full_text
              ((maxLen : ℤ) - acc.length - 100).toNat).length
              ≤ ((maxLen : ℤ) - acc.length - 100).toNat := by
                simp [pySlice, List.length_take]
            _ = maxLen - acc.length - 100 := htn
        have hmark : truncMarker.length = 22 := by decide
        have hhead : (headerOf law).length ≤ maxHeaderLen (law :: rest) := by
          simp [maxHeaderLen]
        simp only [String.length_append]
        omega
      · rw [if_neg hrem]
        exact hacc.trans (Nat.le_add_right _ _)
    · rw [if_neg hov]
      have hrest : maxHeaderLen rest ≤ maxHeaderLen (law :: rest) := by
        simp [maxHeaderLen]
      exact (ih _ (Nat.le_of_not_lt hov)).trans (by omega)

/-- C6 counterexample: with an orphan embeddings file of a newer
timestamp (its chunks file missing) next to a complete older snapshot,
`_try_load_from_local` loads the NEWER embeddings with the OLDER chunks
file: the two lists are sorted independently, so the loaded pair does
not share a timestamp token. -/
theorem load_local_pair_timestamp_mismatch :
    tryLoadFromLocal
      [pathE "embeddings_output" "20250730_005323",
       pathE "embeddings_output" "20250801_120000"]
      [pathC "embeddings_output" "20250730_005323"]
      = some (pathE "embeddings_output" "20250801_120000",
              pathC "embeddings_output" "20250730_005323") ∧
    "20250801_120000" ≠ "20250730_005323" := by
  constructor <;> decide

/-- strict-order lexicographic comparison on character lists is
irreflexive. -/
lemma lex_lt_irrefl (l : List Char) : ¬ List.Lex (· < ·) l l := by
  induction l with
  | nil => intro h; cases h
  | cons c cs ih =>
    intro h
    cases h with
    | rel h' => exact lt_irrefl _ h'
    | cons h' => exact ih h'

/-- a common prefix cancels in lexicographic comparison. -/
lemma lex_append_left_iff (p x y : List Char) :
    List.Lex (· < ·) (p ++ x) (p ++ y) ↔ List.Lex (· < ·) x y := by
  induction p with
  | nil => simp
  | cons c p ih => simpa [List.Lex.cons_iff] using ih

/-- a lexicographic difference between equal-length lists survives any
appended suffixes. -/
lemma lex_append_same_of_lex :
    ∀ (x y s t : List Char), x.length = y.length →
      List.Lex (· < ·) x y → List.Lex (· < ·) (x ++ s) (y ++ t)
  | [], [], _, _, _, h => by cases h
  | [], _ :: _, _, _, hlen, _ => by simp at hlen
  | _ :: _, [], _, _, hlen, _ => by simp at hlen
  | a :: xs, b :: ys, s, t, hlen, h => by
    cases h with
    | rel h' => exact List.Lex.rel h'
    | cons h' =>
      exact List.Lex.cons
        (lex_append_same_of_lex xs ys s t (by simpa using hlen) h')

/-- conversely, a comparison of equal-length lists extended by suffixes
is decided inside the equal-length region or leaves them equal. -/
lemma lex_of_lex_append_same :
    ∀ (x y s t : List Char), x.length = y.length →
      List.Lex (· < ·) (x ++ s) (y ++ t) → x = y ∨ List.Lex (· < ·) x y
  | [], [], _, _, _, _ => Or.inl rfl
  | [], _ :: _, _, _, hlen, _ => by simp at hlen
  | _ :: _, [], _, _, hlen, _ => by simp at hlen
  | a :: xs, b :: ys, s, t, hlen, h => by
    cases h with
    | rel h' => exact Or.inr (List.Lex.rel h')
    | cons h' =>
      rcases lex_of_lex_append_same xs ys s t (by simpa using hlen) h' with
        he | hl
      · exact Or.inl (by rw [he])
      · exact Or.inr (List.Lex.cons hl)

/-- character data of a string concatenation. -/
lemma data_append (a b : String) : (a ++ b).data = a.data ++ b.data := rfl

/-- the executable comparison agrees with lexicographic order. -/
lemma lexLt_iff_lex : ∀ x y : List Char,
    lexLt x y = true ↔ List.Lex (· < ·) x y
  | [], [] => iff_of_false (by simp [lexLt]) (fun h => by cases h)
  | [], _ :: _ => iff_of_true rfl List.Lex.nil
  | _ :: _, [] => iff_of_false (by simp [lexLt]) (fun h => by cases h)
  | a :: as, b :: bs => by
    by_cases hab : a < b
    · exact iff_of_true (by simp [lexLt, hab]) (List.Lex.rel hab)
    · by_cases hba : b < a
      · refine iff_of_false (by simp [lexLt, hab, hba]) ?_
        intro h
        cases h with
        | rel h' => exact hab h'
        | cons h' => exact lt_irrefl _ hba
      · have hEq : a = b := le_antisymm (le_of_not_lt hba) (le_of_not_lt hab)
        subst hEq
        have hstep : lexLt (a :: as) (a :: bs) = lexLt as bs := by
          simp [lexLt]
        rw [hstep, lexLt_iff_lex as bs]
        exact List.Lex.cons_iff.symm

/-- string comparison in terms of the executable codepoint
comparison. -/
lemma string_lt_iff_strLt (a b : String) : a < b ↔ strLt a b = true := by
  rw [String.lt_iff_toList_lt]
  exact (lexLt_iff_lex a.data b.data).symm

/-- a failed comparison means equality or the reverse comparison. -/
lemma strLt_false_cases {a b : String} (h : strLt a b = false) :
    a = b ∨ strLt b a = true := by
  rcases lt_trichotomy a b with hlt | hEq | hgt
  · rw [(string_lt_iff_strLt a b).mp hlt] at h
    cases h
  · exact Or.inl hEq
  · exact Or.inr ((string_lt_iff_strLt b a).mp hgt)

/-- no string compares below itself. -/
lemma strLt_self (a : String) : strLt a a = false := by
  cases h : strLt a a with
  | false => rfl
  | true => exact absurd ((string_lt_iff_strLt a a).mpr h) (lt_irrefl a)

/-- two Booleans agreeing on truth are equal. -/
lemma bool_eq_of_true_iff {a b : Bool} (h : a = true ↔ b = true) : a = b := by
  cases a <;> cases b <;> simp_all

/-- comparison of two paths sharing their affixes, with equal-length
timestamp tokens in the middle, is comparison of the timestamps. -/
lemma affix_strLt (pre suf ts₁ ts₂ : String)
    (hlen : ts₁.length = ts₂.length) :
    strLt (pre ++ ts₁ ++ suf) (pre ++ ts₂ ++ suf) = strLt ts₁ ts₂ := by
  refine bool_eq_of_true_iff ?_
  rw [strLt, strLt, lexLt_iff_lex, lexLt_iff_lex]
  have h1 : (pre ++ ts₁ ++ suf).data = pre.data ++ (ts₁.data ++ suf.data) := by
    rw [data_append, data_append, List.append_assoc]
  have h2 : (pre ++ ts₂ ++ suf).data = pre.data ++ (ts₂.data ++ suf.data) := by
    rw [data_append, data_append, List.append_assoc]
  rw [h1, h2, lex_append_left_iff]
  constructor
  · intro h
    rcases lex_of_lex_append_same ts₁.data ts₂.data _ _ hlen h with he | hl
    · rw [he] at h
      exact absurd h (lex_lt_irrefl _)
    · exact hl
  · intro h
    exact lex_append_same_of_lex ts₁.data ts₂.data _ _ hlen h

/-- the `sorted(files)[-1]` model yields a member of the list. -/
lemma latestFile_mem : ∀ {l : List String} {m : String},
    latestFile l = some m → m ∈ l := by
  intro l
  induction l with
  | nil => intro m h; cases h
  | cons f fs ih =>
    intro m h
    rw [latestFile] at h
    cases hfs : latestFile fs with
    | none =>
      simp only [hfs] at h
      cases h
      exact List.mem_cons_self _ _
    | some m' =>
      simp only [hfs] at h
      by_cases hlt : strLt m' f = true
      · rw [if_pos hlt] at h
        cases h
        exact List.mem_cons_self _ _
      · rw [if_neg hlt] at h
        cases h
        exact List.mem_cons_of_mem _ (ih hfs)

/-- nonempty lists always produce a latest file. -/
lemma latestFile_eq_none : ∀ {l : List String},
    latestFile l = none → l = [] := by
  intro l
  cases l with
  | nil => intro _; rfl
  | cons f fs =>
    intro h
    rw [latestFile] at h
    cases hfs : latestFile fs with
    | none =>
      simp only [hfs] at h
      cases h
    | some m' =>
      simp only [hfs] at h
      by_cases hlt : strLt m' f = true
      · rw [if_pos hlt] at h; cases h
      · rw [if_neg hlt] at h; cases h

/-- the `sorted(files)[-1]` model yields an upper bound of the
list. -/
lemma latestFile_max : ∀ {l : List String} {m : String},
    latestFile l = some m → ∀ x ∈ l, x ≤ m := by
  intro l
  induction l with
  | nil => intro m h; cases h
  | cons f fs ih =>
    intro m h x hx
    rw [latestFile] at h
    cases hL : latestFile fs with
    | none =>
      have hfs : fs = [] := latestFile_eq_none hL
      simp only [hL] at h
      cases h
      subst hfs
      rcases List.mem_cons.mp hx with h' | h'
      · exact le_of_eq h'
      · exact absurd h' (List.not_mem_nil x)
    | some m' =>
      simp only [hL] at h
      by_cases hlt : strLt m' f = true
      · rw [if_pos hlt] at h
        cases h
        rcases List.mem_cons.mp hx with h' | h'
        · exact le_of_eq h'
        · exact (ih hL x h').trans
            (le_of_lt ((string_lt_iff_strLt m' f).mpr hlt))
      · rw [if_neg hlt] at h
        cases h
        rcases List.mem_cons.mp hx with h' | h'
        · subst h'
          rcases strLt_false_cases (Bool.eq_false_iff.mpr hlt) with he | hr
          · exact le_of_eq he.symm
          · exact le_of_lt ((string_lt_iff_strLt x m).mpr hr)
        · exact ih hL x h'

/-- a nonempty list always yields a latest file. -/
lemma latestFile_isSome (l : List String) (h : l ≠ []) :
    ∃ m, latestFile l = some m := by
  cases hL : latestFile l with
  | none => exact absurd (latestFile_eq_none hL) h
  | some m => exact ⟨m, rfl⟩

/-- a map that preserves the codepoint comparison between list members
commutes with the `sorted(files)[-1]` model. -/
lemma latestFile_map (f : String → String) :
    ∀ (l : List String),
      (∀ a ∈ l, ∀ b ∈ l, strLt (f a) (f b) = strLt a b) →
      latestFile (l.map f) = (latestFile l).map f := by
  intro l
  induction l with
  | nil => intro _; rfl
  | cons x xs ih =>
    intro hmono
    have hmono' : ∀ a ∈ xs, ∀ b ∈ xs, strLt (f a) (f b) = strLt a b := by
      intro a ha b hb
      exact hmono a (List.mem_cons_of_mem _ ha) b (List.mem_cons_of_mem _ hb)
    rw [List.map_cons, latestFile, latestFile, ih hmono']
    cases hxs : latestFile xs with
    | none => rfl
    | some m =>
      have hmem : m ∈ x :: xs := List.mem_cons_of_mem _ (latestFile_mem hxs)
      have hm : strLt (f m) (f x) = strLt m x :=
        hmono m hmem x (List.mem_cons_self _ _)
      cases hc : strLt m x with
      | true => simp [hm, hc]
      | false => simp [hm, hc]

/-- C6 amended: the loader picks the lexicographically greatest
embedding path and, independently, the lexicographically greatest chunk
path.  When the discovered files live in ONE directory and form
complete snapshot pairs — both lists arise from the same timestamp
list, timestamps having the fixed production format length — the two
selected files do share one timestamp token, the greatest one. -/
theorem load_local_latest_snapshot_pair (dir : String) (tss : List String)
    (L : Nat) (hne : tss ≠ []) (hlen : ∀ ts ∈ tss, ts.length = L) :
    ∃ M ∈ tss, (∀ ts ∈ tss, ts ≤ M) ∧
      tryLoadFromLocal (tss.map (pathE dir)) (tss.map (pathC dir))
        = some (pathE dir M, pathC dir M) := by
  obtain ⟨M, hM⟩ := latestFile_isSome tss hne
  have hMem : M ∈ tss := latestFile_mem hM
  have hMax : ∀ ts ∈ tss, ts ≤ M := latestFile_max hM
  have hmonoE : ∀ a ∈ tss, ∀ b ∈ tss,
      strLt (pathE dir a) (pathE dir b) = strLt a b := by
    intro a ha b hb
    exact affix_strLt (dir ++ "/legal_embeddings_") ".npy" a b
      (by rw [hlen a ha, hlen b hb])
  have hmonoC : ∀ a ∈ tss, ∀ b ∈ tss,
      strLt (pathC dir a) (pathC dir b) = strLt a b := by
    intro a ha b hb
    exact affix_strLt (dir ++ "/legal_chunks_") ".json" a b
      (by rw [hlen a ha, hlen b hb])
  have hE : latestFile (tss.map (pathE dir)) = some (pathE dir M) := by
    rw [latestFile_map _ _ hmonoE, hM]
    rfl
  have hC : latestFile (tss.map (pathC dir)) = some (pathC dir M) := by
    rw [latestFile_map _ _ hmonoC, hM]
    rfl
  refine ⟨M, hMem, hMax, ?_⟩
  rw [tryLoadFromLocal, if_neg]
  · rw [hE, hC]
  · push_neg
    constructor <;> simpa using hne

/-- closed instance of the amended C6 theorem at the production
timestamp format. -/
theorem load_local_latest_snapshot_pair_witness :
    ∃ M ∈ ["20250730_005323", "20250801_120000"],
      (∀ ts ∈ ["20250730_005323", "20250801_120000"], ts ≤ M) ∧
      tryLoadFromLocal
        (["20250730_005323", "20250801_120000"].map
          (pathE "embeddings_output"))
        (["20250730_005323", "20250801_120000"].map
          (pathC "embeddings_output"))
        = some (pathE "embeddings_output" M, pathC "embeddings_output" M) :=
  load_local_latest_snapshot_pair "embeddings_output"
    ["20250730_005323", "20250801_120000"] 15 (by decide) (by decide)


/-- token sum of a chunk's units: the quantity tracked in
`current_chunk_tokens`. -/
def sumTc (tc : String → Nat) (g : List String) : Nat :=
  (g.map tc).sum

/-- whitespace test distributes over concatenation. -/
lemma hasNonWS_append (a b : String) :
    hasNonWS (a ++ b) = (hasNonWS a || hasNonWS b) := by
  simp [hasNonWS, data_append]

/-- a single space is whitespace. -/
lemma hasNonWS_space : hasNonWS " " = false := by decide

/-- a space-joined group has content exactly when one unit does. -/
lemma hasNonWS_joinSp : ∀ l : List String,
    hasNonWS (joinSp l) = l.any (fun u => hasNonWS u)
  | [] => by simp [joinSp, hasNonWS]
  | [x] => by simp [joinSp]
  | x :: y :: t => by
    have h1 : joinSp (x :: y :: t) = x ++ " " ++ joinSp (y :: t) := rfl
    rw [h1, hasNonWS_append, hasNonWS_append, hasNonWS_space,
      hasNonWS_joinSp (y :: t)]
    simp

/-- subadditive token counters bound the joined text by the tracked
unit sum. -/
lemma tc_joinSp_le (tc : String → Nat)
    (H1 : ∀ a b, tc (a ++ " " ++ b) ≤ tc a + tc b) :
    ∀ (g : List String) (x : String),
      tc (joinSp (x :: g)) ≤ tc x + sumTc tc g := by
  intro g
  induction g with
  | nil => intro x; simp [joinSp, sumTc]
  | cons y t ih =>
    intro x
    have h1 : joinSp (x :: y :: t) = x ++ " " ++ joinSp (y :: t) := rfl
    have h2 : sumTc tc (y :: t) = tc y + sumTc tc t := by simp [sumTc]
    rw [h1, h2]
    calc tc (x ++ " " ++ joinSp (y :: t))
        ≤ tc x + tc (joinSp (y :: t)) := H1 _ _
      _ ≤ tc x + (tc y + sumTc tc t) := Nat.add_le_add_left (ih y) _

/-- unit counts add over concatenation. -/
lemma unitCount_append (g h : List String) :
    unitCount (g ++ h) = unitCount g + unitCount h := by
  simp [unitCount, List.filter_append]

/-- a single unit counts at most one. -/
lemma unitCount_single_le (a : String) : unitCount [a] ≤ 1 := by
  cases h : hasNonWS a <;> simp [unitCount, h]

/-- a group of all-whitespace units counts no units. -/
lemma unitCount_zero_of {cur : List String}
    (h : cur.any (fun u => hasNonWS u) = false) : unitCount cur = 0 := by
  have h' : ∀ u ∈ cur, hasNonWS u = false := by simpa using h
  simp only [unitCount, List.length_eq_zero, List.filter_eq_nil_iff]
  intro u hu
  simp [h' u hu]

/-- invariant of the article accumulation loop: every closed chunk of
two or more content units has its tracked token sum, hence its joined
token count, within the ceiling.  A chunk can only escape the check at
the moment an article is appended to an all-whitespace current chunk
(the `current_chunk.strip()` guard), and such a chunk has at most one
content unit. -/
lemma chunkArticlesGo_ceiling (tc : String → Nat) (maxTok : Nat)
    (H1 : ∀ a b, tc (a ++ " " ++ b) ≤ tc a + tc b) :
    ∀ (arts : List String), (∀ a ∈ arts, hasNonWS a = true) →
    ∀ (cur : List String) (curTok : Nat) (acc : List (List String)),
      cur ≠ [] →
      curTok = sumTc tc cur →
      (2 ≤ unitCount cur → curTok ≤ maxTok) →
      (∀ g ∈ acc, 2 ≤ unitCount g → tc (joinSp g) ≤ maxTok) →
      ∀ g ∈ chunkArticlesGo tc maxTok arts cur curTok acc,
        2 ≤ unitCount g → tc (joinSp g) ≤ maxTok := by
  intro arts
  induction arts with
  | nil =>
    intro _ cur curTok acc hcur hsum hinv hacc g hg
    rw [chunkArticlesGo] at hg
    by_cases hns : hasNonWS (joinSp cur) = true
    · rw [if_pos hns] at hg
      rcases List.mem_append.mp hg with h | h
      · exact hacc g h
      · have hg' : g = cur := by simpa using h
        subst hg'
        intro h2
        cases hc : g with
        | nil => exact absurd hc hcur
        | cons x t =>
          have hle := tc_joinSp_le tc H1 t x
          have hs : sumTc tc (x :: t) = tc x + sumTc tc t := by simp [sumTc]
          have hm : curTok ≤ maxTok := hinv h2
          rw [hc] at hsum
          omega
    · rw [if_neg hns] at hg
      exact hacc g hg
  | cons a rest ih =>
    intro hnw cur curTok acc hcur hsum hinv hacc g hg
    rw [chunkArticlesGo] at hg
    have hnw' : ∀ x ∈ rest, hasNonWS x = true := fun x hx =>
      hnw x (List.mem_cons_of_mem _ hx)
    by_cases hC : maxTok < curTok + tc a ∧ hasNonWS (joinSp cur) = true
    · rw [if_pos hC] at hg
      refine ih hnw' [a] (tc a) (acc ++ [cur]) (by simp) (by simp [sumTc])
        ?_ ?_ g hg
      · intro h2
        exact absurd (h2.trans (unitCount_single_le a)) (by omega)
      · intro g' hg'
        rcases List.mem_append.mp hg' with h | h
        · exact hacc g' h
        · have hg'' : g' = cur := by simpa using h
          subst hg''
          intro h2
          cases hc : g' with
          | nil => exact absurd hc hcur
          | cons x t =>
            have hle := tc_joinSp_le tc H1 t x
            have hs : sumTc tc (x :: t) = tc x + sumTc tc t := by simp [sumTc]
            have hm : curTok ≤ maxTok := hinv h2
            rw [hc] at hsum
            omega
    · rw [if_neg hC] at hg
      refine ih hnw' (cur ++ [a]) (curTok + tc a) acc (by simp)
        ?_ ?_ hacc g hg
      · rw [hsum]; simp [sumTc]
      · intro h2
        rcases not_and_or.mp hC with h | h
        · exact le_of_not_lt h
        · exfalso
          have hany : cur.any (fun u => hasNonWS u) = false := by
            rw [← hasNonWS_joinSp cur]
            exact Bool.eq_false_iff.mpr h
          have h0 : unitCount cur = 0 := unitCount_zero_of hany
          have h1 : unitCount (cur ++ [a]) ≤ 1 := by
            rw [unitCount_append, h0]
            simpa using unitCount_single_le a
          omega

/-- appending a sentence to a nonempty group extends the dot-joined
text. -/
lemma joinDot_append_single : ∀ (cur : List String) (s : String),
    cur ≠ [] → joinDot (cur ++ [s]) = joinDot cur ++ ". " ++ s
  | [], _, h => absurd rfl h
  | [x], s, _ => rfl
  | x :: y :: t, s, _ => by
    have h1 : joinDot ((x :: y :: t) ++ [s])
        = x ++ ". " ++ joinDot ((y :: t) ++ [s]) := rfl
    have h2 : joinDot (x :: y :: t) = x ++ ". " ++ joinDot (y :: t) := rfl
    rw [h1, h2, joinDot_append_single (y :: t) s (List.cons_ne_nil _ _)]
    simp [String.append_assoc]

/-- invariant of the sentence fallback loop: the code measures the
actual joined text before extending a chunk, so every closed chunk of
two or more sentences is within the ceiling — with no assumption on
the token counter. -/
lemma chunkSentencesGo_ceiling (tc : String → Nat) (maxTok : Nat) :
    ∀ (sents : List String) (cur : List String) (acc : List (List String)),
      (2 ≤ cur.length → tc (joinDot cur) ≤ maxTok) →
      (∀ g ∈ acc, 2 ≤ g.length → tc (joinDot g) ≤ maxTok) →
      ∀ g ∈ chunkSentencesGo tc maxTok sents cur acc,
        2 ≤ g.length → tc (joinDot g) ≤ maxTok := by
  intro sents
  induction sents with
  | nil =>
    intro cur acc hinv hacc g hg
    rw [chunkSentencesGo] at hg
    by_cases hns : hasNonWS (joinDot cur) = true
    · rw [if_pos hns] at hg
      rcases List.mem_append.mp hg with h | h
      · exact hacc g h
      · have hg' : g = cur := by simpa using h
        subst hg'
        exact hinv
    · rw [if_neg hns] at hg
      exact hacc g hg
  | cons s rest ih =>
    intro cur acc hinv hacc g hg
    rw [chunkSentencesGo] at hg
    by_cases hemp : joinDot cur = ""
    · simp only [if_pos hemp] at hg
      by_cases hov : maxTok < tc s
      · rw [if_pos hov] at hg
        exact ih [s] acc (by intro h2; simp at h2) hacc g hg
      · rw [if_neg hov] at hg
        refine ih [s] acc ?_ hacc g hg
        intro h2
        simp at h2
    · simp only [if_neg hemp] at hg
      by_cases hov : maxTok < tc (joinDot cur ++ ". " ++ s)
      · rw [if_pos hov] at hg
        refine ih [s] (acc ++ [cur]) (by intro h2; simp at h2) ?_ g hg
        intro g' hg'
        rcases List.mem_append.mp hg' with h | h
        · exact hacc g' h
        · have hg'' : g' = cur := by simpa using h
          subst hg''
          exact hinv
      · rw [if_neg hov] at hg
        refine ih (cur ++ [s]) acc ?_ hacc g hg
        intro _
        have hne : cur ≠ [] := by
          intro h
          rw [h] at hemp
          exact hemp rfl
        rw [joinDot_append_single cur s hne]
        exact le_of_not_lt hov

/-- C2: every chunk built by concatenating two or more content units
stays within the configured token ceiling, on both chunker paths.  On
the article path (`chunk_text`, lines 60-79) this holds for any token
counter that is subadditive across the single-space joins the code
performs (the assumption made about the external cl100k tokenizer),
with articles carrying their non-whitespace `MADDE n` marker; only a
chunk with at most one content unit (a lone article or a lone
oversized unit, possibly prefixed by an all-whitespace preamble) may
exceed the ceiling.  On the sentence fallback (`_chunk_by_sentences`,
lines 87-106) the code measures the actual joined text, so the bound
needs no assumption at all. -/
theorem chunk_ceiling (tc : String → Nat) (maxTok : Nat) (pre : String)
    (arts : List String) (sents : List String)
    (hsub : ∀ a b, tc (a ++ " " ++ b) ≤ tc a + tc b)
    (harts : ∀ a ∈ arts, hasNonWS a = true) :
    (∀ g ∈ chunkArticleGroups tc maxTok pre arts,
      2 ≤ unitCount g → tc (joinSp g) ≤ maxTok) ∧
    (∀ g ∈ chunkSentenceGroups tc maxTok sents,
      2 ≤ g.length → tc (joinDot g) ≤ maxTok) := by
  constructor
  · intro g hg
    refine chunkArticlesGo_ceiling tc maxTok hsub arts harts [pre] (tc pre) []
      (by simp) (by simp [sumTc]) ?_ (by simp) g hg
    intro h2
    exact absurd (h2.trans (unitCount_single_le pre)) (by omega)
  · intro g hg
    exact chunkSentencesGo_ceiling tc maxTok sents [] []
      (by intro h2; simp at h2) (by simp) g hg

/-- the non-space character count is exactly additive across
single-space joins. -/
lemma countNonSpace_append_space (a b : String) :
    countNonSpace (a ++ " " ++ b) = countNonSpace a + countNonSpace b := by
  have h1 : (a ++ " " ++ b).data = a.data ++ (' ' :: b.data) := by
    rw [data_append, data_append]
    simp
  simp [countNonSpace, h1, List.filter_append]

/-- closed instance of the chunk-ceiling theorem: the non-space
character counter on a two-article document with a preamble, and a
two-sentence fallback document, at the production ceiling 7000. -/
theorem chunk_ceiling_witness :
    (∀ a b, countNonSpace (a ++ " " ++ b)
      ≤ countNonSpace a + countNonSpace b) ∧
    (∀ a ∈ ["MADDE 1 çevre korunur", "MADDE 2 ceza verilir"],
      hasNonWS a = true) ∧
    ((∀ g ∈ chunkArticleGroups countNonSpace 7000 "Giriş hükmü"
        ["MADDE 1 çevre korunur", "MADDE 2 ceza verilir"],
      2 ≤ unitCount g → countNonSpace (joinSp g) ≤ 7000) ∧
    (∀ g ∈ chunkSentenceGroups countNonSpace 7000
        ["Cümle bir", "Cümle iki"],
      2 ≤ g.length → countNonSpace (joinDot g) ≤ 7000)) :=
  ⟨fun a b => le_of_eq (countNonSpace_append_space a b), by decide,
    chunk_ceiling countNonSpace 7000 "Giriş hükmü"
      ["MADDE 1 çevre korunur", "MADDE 2 ceza verilir"]
      ["Cümle bir", "Cümle iki"]
      (fun a b => le_of_eq (countNonSpace_append_space a b)) (by decide)⟩

/-- C8 counterexample: the chunk vector `[0]` has zero norm, and the
fallback `cosine_similarity` divides by the zero product of norms:
numpy produces NaN (emitting a RuntimeWarning, not an exception), so
the computed value is non-finite (`none` in the model), NOT the claimed
similarity 0, and it does not lie in [-1, 1] either. -/
theorem cosine_fallback_zero_vector_not_zero :
    normSq [0] = 0 ∧ cosineFallback [1] [0] = none := by
  constructor <;> norm_num [cosineFallback, normSq, dot]

/-- squared norms are nonnegative. -/
lemma normSq_nonneg (v : List ℚ) : 0 ≤ normSq v := by
  induction v with
  | nil => exact le_refl 0
  | cons x xs ih =>
    have hx : normSq (x :: xs) = x * x + normSq xs := by
      simp [normSq, dot]
    rw [hx]
    exact add_nonneg (mul_self_nonneg x) ih

/-- Cauchy–Schwarz for the list dot product over ℚ. -/
lemma dot_sq_le_normSq_mul : ∀ (q c : List ℚ),
    (dot q c) ^ 2 ≤ normSq q * normSq c := by
  intro q
  induction q with
  | nil =>
    intro c
    simp [dot, normSq]
  | cons x xs ih =>
    intro c
    cases c with
    | nil => simp [dot, normSq]
    | cons y ys =>
      have hdq : dot (x :: xs) (y :: ys) = x * y + dot xs ys := by
        simp [dot]
      have hq : normSq (x :: xs) = x * x + normSq xs := by
        simp [normSq, dot]
      have hc : normSq (y :: ys) = y * y + normSq ys := by
        simp [normSq, dot]
      rw [hdq, hq, hc]
      have hA : 0 ≤ normSq xs := normSq_nonneg xs
      have hB : 0 ≤ normSq ys := normSq_nonneg ys
      have hih := ih ys
      rcases eq_or_lt_of_le hB with hB0 | hBpos
      · have hD : dot xs ys = 0 := by
          nlinarith [sq_nonneg (dot xs ys)]
        rw [hD, ← hB0]
        nlinarith [mul_nonneg hA (mul_self_nonneg y)]
      · nlinarith [sq_nonneg (x * normSq ys - y * dot xs ys),
          mul_nonneg (mul_self_nonneg y) (sub_nonneg.mpr hih),
          mul_nonneg (le_of_lt hBpos) (sub_nonneg.mpr hih)]

/-- C8 amended: for query and chunk vectors of nonzero norm the
fallback cosine is the finite value `dot/(‖q‖·‖c‖)` — represented by
its numerator and squared denominator — and it lies in [-1, 1]: in the
square-free rational form, `dot² ≤ ‖q‖²·‖c‖²` (Cauchy–Schwarz).  A
zero-norm chunk vector instead yields the non-finite NaN/Inf value,
not 0 (see the counterexample); in neither case is an exception raised
that would abort the search (the fallback is total, and `search_laws`
additionally absorbs exceptions). -/
theorem cosine_fallback_bounds (q c : List ℚ)
    (hq : normSq q ≠ 0) (hc : normSq c ≠ 0) :
    cosineFallback q c = some (dot q c, normSq q * normSq c) ∧
    (dot q c) ^ 2 ≤ normSq q * normSq c := by
  constructor
  · rw [cosineFallback, if_neg (mul_ne_zero hq hc)]
  · exact dot_sq_le_normSq_mul q c

/-- closed instance of the amended C8 theorem on a pair of nonzero
vectors. -/
theorem cosine_fallback_bounds_witness :
    normSq [1, 2] ≠ 0 ∧ normSq [3, 4] ≠ 0 ∧
    (cosineFallback [1, 2] [3, 4]
        = some (dot [1, 2] [3, 4], normSq [1, 2] * normSq [3, 4]) ∧
      (dot [1, 2] [3, 4]) ^ 2 ≤ normSq [1, 2] * normSq [3, 4]) :=
  ⟨by norm_num [normSq, dot], by norm_num [normSq, dot],
    cosine_fallback_bounds [1, 2] [3, 4]
      (by norm_num [normSq, dot]) (by norm_num [normSq, dot])⟩

/-- C5 amended: `get_combined_law_text` concatenates each resolved
law's header and full text in resolution order; once the cumulative
length would exceed `max_length`, the current law's text is truncated
with a marker appended ONLY when more than 300 characters of budget
remain (`max_length - len(combined) - 100 > 200`), otherwise the
current law is omitted with no marker; all later laws are always
omitted.  In every case the returned string is at most `max_length`
plus the largest resolved-law header length. -/
theorem combined_text_length_bound (df : List LawRow)
    (names : List String) (maxLen : Nat) :
    (getCombinedLawText df names maxLen).length
      ≤ maxLen + maxHeaderLen (findMultipleLaws df names) :=
  combineLoop_length_le maxLen (findMultipleLaws df names) "" (by simp)

end MevzuatAI
